import Mathlib

/-
Shallow embedding of the seed-alignment core declared in aligner_seed.h
(bowtie2 beta).  C++ `int` fields are modelled as `Int`, `size_t` and
`uint32_t` counters as `Nat`, `uint64_t` counters as `Nat` reduced mod
2^64 where the source adds them, and `float` coefficients as exact
rationals (`Rat`), with the IEEE single-precision maximum represented by
its exact rational value.  The C cast `(int)x` truncates toward zero,
which on a rational `num/den` (den positive) is integer T-division.
-/

/-- Interface of the Penalties table consumed from penalty.h: per-quality
mismatch and N penalties, per-extension insertion and deletion
penalties.  The table is abstract here; only its four accessors are
used by aligner_seed.h. -/
structure Penalties where
  mm : Int → Int
  n : Int → Int
  ins : Int → Int
  del : Int → Int

/-- Exact rational value of std::numeric_limits<float>::max(),
which is (2^24 - 1) * 2^104 = 2^128 - 2^104, written as a plain
numeral so that kernel evaluation can reduce it. -/
def fltMax : Rat := 340282346638528859811704183484516925440

/-- The C cast `(int)q` on a rational value: truncation toward zero.
For `q = num/den` with positive `den` this is Int T-division of the
numerator by the denominator. -/
def ratTrunc (q : Rat) : Int := q.num / (q.den : Int)

/-- Embedding of `struct Constraint` from aligner_seed.h: remaining edit
budgets, ceilings checked at zone close, and the penalty function
coefficients. -/
structure Constraint where
  edits : Int
  mms : Int
  ins : Int
  dels : Int
  penalty : Int
  editsCeil : Int
  mmsCeil : Int
  insCeil : Int
  delsCeil : Int
  penaltyCeil : Int
  penConst : Rat
  penLinear : Rat
  instantiated : Bool
deriving DecidableEq

/-- `Constraint::init()`: fully permissive constraint; all Int fields are
INT_MAX, both float coefficients are FLT_MAX, not yet instantiated. -/
def Constraint.init : Constraint :=
  { edits := 2147483647, mms := 2147483647, ins := 2147483647,
    dels := 2147483647, penalty := 2147483647, editsCeil := 2147483647,
    mmsCeil := 2147483647, insCeil := 2147483647, delsCeil := 2147483647,
    penaltyCeil := 2147483647, penConst := fltMax, penLinear := fltMax,
    instantiated := false }

/-- `Constraint::mustMatch()`. -/
def Constraint.mustMatch (c : Constraint) : Bool :=
  (decide (c.mms = 0) && decide (c.edits = 0)) ||
  decide (c.penalty = 0) ||
  (decide (c.mms = 0) && decide (c.dels = 0) && decide (c.ins = 0))

/-- `Constraint::canMismatch(q, cm)`. -/
def Constraint.canMismatch (c : Constraint) (q : Int) (cm : Penalties) : Bool :=
  (decide (0 < c.mms) || decide (0 < c.edits)) && decide (cm.mm q ≤ c.penalty)

/-- `Constraint::canN(q, cm)`. -/
def Constraint.canN (c : Constraint) (q : Int) (cm : Penalties) : Bool :=
  (decide (0 < c.mms) || decide (0 < c.edits)) && decide (cm.n q ≤ c.penalty)

/-- `Constraint::canDelete(ex, cm)`: note the conjunction of the two
counter tests. -/
def Constraint.canDelete (c : Constraint) (ex : Int) (cm : Penalties) : Bool :=
  (decide (0 < c.dels) && decide (0 < c.edits)) && decide (cm.del ex ≤ c.penalty)

/-- `Constraint::canInsert(ex, cm)`: note the disjunction of the two
counter tests, unlike `canDelete`. -/
def Constraint.canInsert (c : Constraint) (ex : Int) (cm : Penalties) : Bool :=
  (decide (0 < c.ins) || decide (0 < c.edits)) && decide (cm.ins ex ≤ c.penalty)

/-- `Constraint::chargeMismatch(q, cm)`: decrement `edits` when `mms` is
zero, else decrement `mms`; subtract the mismatch penalty. -/
def Constraint.chargeMismatch (c : Constraint) (q : Int) (cm : Penalties) : Constraint :=
  let c1 := if c.mms = 0 then { c with edits := c.edits - 1 } else { c with mms := c.mms - 1 }
  { c1 with penalty := c1.penalty - cm.mm q }

/-- `Constraint::chargeN(q, cm)`. -/
def Constraint.chargeN (c : Constraint) (q : Int) (cm : Penalties) : Constraint :=
  let c1 := if c.mms = 0 then { c with edits := c.edits - 1 } else { c with mms := c.mms - 1 }
  { c1 with penalty := c1.penalty - cm.n q }

/-- `Constraint::chargeDelete(ex, cm)`: decrements both `dels` and
`edits` unconditionally. -/
def Constraint.chargeDelete (c : Constraint) (ex : Int) (cm : Penalties) : Constraint :=
  { c with dels := c.dels - 1, edits := c.edits - 1, penalty := c.penalty - cm.del ex }

/-- `Constraint::chargeInsert(ex, cm)`: decrements both `ins` and
`edits` unconditionally. -/
def Constraint.chargeInsert (c : Constraint) (ex : Int) (cm : Penalties) : Constraint :=
  { c with ins := c.ins - 1, edits := c.edits - 1, penalty := c.penalty - cm.ins ex }

/-- `Constraint::acceptable()`. -/
def Constraint.acceptable (c : Constraint) : Bool :=
  decide (c.edits ≤ c.editsCeil) && decide (c.mms ≤ c.mmsCeil) &&
  decide (c.ins ≤ c.insCeil) && decide (c.dels ≤ c.delsCeil) &&
  decide (c.penalty ≤ c.penaltyCeil)

/-- The static `Constraint::instantiate(rdlen, penConst, penLinear)`:
`(int)(0.5f + penConst + penLinear * rdlen)`. -/
def Constraint.instantiate (rdlen : Nat) (penConst penLinear : Rat) : Int :=
  ratTrunc (1 / 2 + penConst + penLinear * (rdlen : Rat))

/-- The member `Constraint::instantiate(rdlen)`: recompute `penalty`
from the coefficients when `penConst` is not the FLT_MAX sentinel, then
mark the constraint instantiated. -/
def Constraint.instantiateSelf (c : Constraint) (rdlen : Nat) : Constraint :=
  let c1 := if c.penConst ≠ fltMax
    then { c with penalty := Constraint.instantiate rdlen c.penConst c.penLinear }
    else c
  { c1 with instantiated := true }

/-- The three canned seed-policy builders named by `Seed::mmSeeds`; their
bodies live in the .cc file, the dispatch under study only selects one
of them. -/
inductive SeedBuilder where
  | zeroMmSeeds : SeedBuilder
  | oneMmSeeds : SeedBuilder
  | twoMmSeeds : SeedBuilder
deriving DecidableEq

/-- `Seed::mmSeeds(mms, ln, pols, oall)`: dispatch on the number of
mismatches; any value other than 0, 1, 2 raises `throw 1` to the
caller, modelled as `Except.error 1`. -/
def Seed.mmSeeds (mms : Int) : Except Int SeedBuilder :=
  if mms = 0 then Except.ok SeedBuilder.zeroMmSeeds
  else if mms = 1 then Except.ok SeedBuilder.oneMmSeeds
  else if mms = 2 then Except.ok SeedBuilder.twoMmSeeds
  else Except.error 1

/-- Embedding of `struct SeedSearchMetrics` (the mutex is not part of
the data; `merge` is studied as a pure function on the eight uint64
counters). -/
structure SeedSearchMetrics where
  seedsearch : Nat
  possearch : Nat
  intrahit : Nat
  interhit : Nat
  filteredseed : Nat
  ooms : Nat
  bwops : Nat
  bweds : Nat
deriving DecidableEq

/-- `SeedSearchMetrics::merge(m)`: add each counter of `m` into the
receiver; uint64 addition wraps mod 2^64. -/
def SeedSearchMetrics.merge (a m : SeedSearchMetrics) : SeedSearchMetrics :=
  { seedsearch := (a.seedsearch + m.seedsearch) % 2 ^ 64,
    possearch := (a.possearch + m.possearch) % 2 ^ 64,
    intrahit := (a.intrahit + m.intrahit) % 2 ^ 64,
    interhit := (a.interhit + m.interhit) % 2 ^ 64,
    filteredseed := (a.filteredseed + m.filteredseed) % 2 ^ 64,
    ooms := (a.ooms + m.ooms) % 2 ^ 64,
    bwops := (a.bwops + m.bwops) % 2 ^ 64,
    bweds := (a.bweds + m.bweds) % 2 ^ 64 }

/-- `SeedSearchMetrics::reset()`: all eight counters become 0. -/
def SeedSearchMetrics.resetM (_a : SeedSearchMetrics) : SeedSearchMetrics :=
  { seedsearch := 0, possearch := 0, intrahit := 0, interhit := 0,
    filteredseed := 0, ooms := 0, bwops := 0, bweds := 0 }

/-- Whether every counter of a metrics record fits in a uint64. -/
def SeedSearchMetrics.inRange (a : SeedSearchMetrics) : Prop :=
  a.seedsearch < 2 ^ 64 ∧ a.possearch < 2 ^ 64 ∧ a.intrahit < 2 ^ 64 ∧
  a.interhit < 2 ^ 64 ∧ a.filteredseed < 2 ^ 64 ∧ a.ooms < 2 ^ 64 ∧
  a.bwops < 2 ^ 64 ∧ a.bweds < 2 ^ 64

instance (a : SeedSearchMetrics) : Decidable a.inRange := by
  unfold SeedSearchMetrics.inRange
  infer_instance

/-- The cache QVal as consumed by SeedResults: element count, range
count, and the valid and empty flags.  The QVal implementation lives in
aligner_cache.h; per the spec, only `numElts`, `numRanges`, `empty`,
`valid` (and `reset`) are consumed here, so the four observations are
carried as independent fields. -/
structure QVal where
  numElts : Nat
  numRanges : Nat
  vld : Bool
  empt : Bool
deriving DecidableEq

/-- Modelled from the spec: `QVal::reset()` (aligner_cache.h is not in
src/).  A reset QVal holds no ranges or elements, is empty, and is not
valid, so a reset bucket never counts as occupied. -/
def QVal.resetQ : QVal :=
  { numElts := 0, numRanges := 0, vld := false, empt := true }

/-- Embedding of `class SeedResults`: the hit buckets, the aggregate
counters, and the ranking state.  The extracted sequence and quality
strings and the instantiated-seed lists are not modelled (no claim
reads them); the read pointer is likewise omitted. -/
structure SeedResults where
  hitsFw : List QVal
  hitsRc : List QVal
  sortedFw : List Bool
  sortedRc : List Bool
  nonzTot : Nat
  nonzFw : Nat
  nonzRc : Nat
  numRanges : Nat
  numElts : Nat
  numRangesFw : Nat
  numEltsFw : Nat
  numRangesRc : Nat
  numEltsRc : Nat
  offIdx2off : List Nat
  rankOffs : List Nat
  rankFws : List Bool
  sorted : Bool
  numOffs : Nat
deriving DecidableEq

/-- `SeedResults::add(qv, ac, seedIdx, seedFw, seedLen)`: return
unchanged when `qv.empty()`; otherwise store `qv` in the bucket for the
given orientation and offset index and bump the aggregate counters.
The cache argument and `seedLen` feed only assertions and are omitted. -/
def SeedResults.add (s : SeedResults) (qv : QVal) (seedIdx : Nat) (seedFw : Bool) : SeedResults :=
  if qv.empt then s else
  let s1 :=
    if seedFw then
      { s with hitsFw := s.hitsFw.set seedIdx qv,
               numEltsFw := s.numEltsFw + qv.numElts,
               numRangesFw := s.numRangesFw + qv.numRanges,
               nonzFw := if 0 < qv.numRanges then s.nonzFw + 1 else s.nonzFw }
    else
      { s with hitsRc := s.hitsRc.set seedIdx qv,
               numEltsRc := s.numEltsRc + qv.numElts,
               numRangesRc := s.numRangesRc + qv.numRanges,
               nonzRc := if 0 < qv.numRanges then s.nonzRc + 1 else s.nonzRc }
  { s1 with numElts := s1.numElts + qv.numElts,
            numRanges := s1.numRanges + qv.numRanges,
            nonzTot := if 0 < qv.numRanges then s1.nonzTot + 1 else s1.nonzTot }

/-- `SeedResults::clear()`: drop the rank and sorted vectors and zero
every aggregate counter.  The bucket lists and `numOffs_` are untouched
(they are rebuilt by `reset`). -/
def SeedResults.clear (s : SeedResults) : SeedResults :=
  { s with sortedFw := [], sortedRc := [], rankOffs := [], rankFws := [],
           nonzTot := 0, nonzFw := 0, nonzRc := 0,
           numRanges := 0, numElts := 0,
           numRangesFw := 0, numEltsFw := 0, numRangesRc := 0, numEltsRc := 0 }

/-- `SeedResults::reset(read, offIdx2off, numOffs)`: clear, then size
every per-offset vector to `numOffs`, reset each bucket QVal, clear the
sorted flags, and record the offset map. -/
def SeedResults.reset (s : SeedResults) (offIdx2off : List Nat) (numOffs : Nat) : SeedResults :=
  let s1 := s.clear
  { s1 with numOffs := numOffs,
            hitsFw := List.replicate numOffs QVal.resetQ,
            hitsRc := List.replicate numOffs QVal.resetQ,
            sortedFw := List.replicate numOffs false,
            sortedRc := List.replicate numOffs false,
            offIdx2off := offIdx2off,
            sorted := false }

/-- The bucket for one orientation and offset index:
`hitsFw_[i]` when `fw`, else `hitsRc_[i]`. -/
def SeedResults.bucket (s : SeedResults) (fw : Bool) (i : Nat) : QVal :=
  (if fw then s.hitsFw else s.hitsRc).getD i QVal.resetQ

/-- The sorted flag for one orientation and offset index. -/
def SeedResults.sortedFlag (s : SeedResults) (fw : Bool) (i : Nat) : Bool :=
  (if fw then s.sortedFw else s.sortedRc).getD i false

/-- The order in which the selection scan of `SeedResults::sort` visits
the buckets: the outer loop runs `fw = 0` (the reverse-complement
buckets) then `fw = 1` (the forward buckets), the inner loop runs the
offset indexes in increasing order. -/
def scanOrder (numOffs : Nat) : List (Bool × Nat) :=
  ((List.range numOffs).map fun i => ((false : Bool), i)) ++
  ((List.range numOffs).map fun i => ((true : Bool), i))

/-- The element count of a bucket named by a (fw, offset-index) pair. -/
def SeedResults.bval (s : SeedResults) (b : Bool × Nat) : Nat :=
  (s.bucket b.1 b.2).numElts

/-- The candidate test of the selection scan: the bucket holds a valid
QVal with at least one element and has not been marked sorted yet. -/
def SeedResults.isCand (s : SeedResults) (b : Bool × Nat) : Bool :=
  (s.bucket b.1 b.2).vld && decide (0 < s.bval b) && !(s.sortedFlag b.1 b.2)

/-- The not-yet-ranked candidates, in scan order. -/
def SeedResults.cands (s : SeedResults) : List (Bool × Nat) :=
  (scanOrder s.numOffs).filter s.isCand

/-- The buckets holding a valid QVal with at least one element, in scan
order; this ignores the sorted flags. -/
def SeedResults.nonEmptyBuckets (s : SeedResults) : List (Bool × Nat) :=
  (scanOrder s.numOffs).filter fun b =>
    (s.bucket b.1 b.2).vld && decide (0 < s.bval b)

/-- One candidate test of the inner scan of `SeedResults::sort`: the
accumulator is `(minsz, minidx, minfw)` and is replaced when the bucket
is a candidate whose element count is strictly below `minsz`. -/
def SeedResults.scanStep (s : SeedResults) (acc : Nat × Nat × Bool) (b : Bool × Nat) :
    Nat × Nat × Bool :=
  if s.isCand b && decide (s.bval b < acc.1) then (s.bval b, b.2, b.1) else acc

/-- The full double scan of `SeedResults::sort` locating the minimum
unsorted bucket; `minsz` starts at 0xffffffff, `minidx` at 0, `minfw`
at true. -/
def SeedResults.selectMin (s : SeedResults) : Nat × Nat × Bool :=
  (scanOrder s.numOffs).foldl s.scanStep (4294967295, 0, true)

/-- One iteration of the selection-sort loop of `SeedResults::sort`:
mark the located bucket sorted and append its index and orientation to
the rank vectors. -/
def SeedResults.sortStep (s : SeedResults) : SeedResults :=
  let m := s.selectMin
  let minidx := m.2.1
  let minfw := m.2.2
  let s1 :=
    if minfw then { s with sortedFw := s.sortedFw.set minidx true }
    else { s with sortedRc := s.sortedRc.set minidx true }
  { s1 with rankOffs := s1.rankOffs ++ [minidx], rankFws := s1.rankFws ++ [minfw] }

/-- The selection-sort loop, driven by the number of remaining
iterations; the C++ loop runs while `rankOffs_.size() < nonzTot_`, and
each iteration appends exactly one rank entry. -/
def SeedResults.sortGo (s : SeedResults) : Nat → SeedResults
  | 0 => s
  | k + 1 => (s.sortStep).sortGo k

/-- `SeedResults::sort()`: run the selection-sort loop to completion
and set the sorted flag. -/
def SeedResults.sortAll (s : SeedResults) : SeedResults :=
  { s.sortGo (s.nonzTot - s.rankOffs.length) with sorted := true }

/-- The ranked sequence produced by the sort: the parallel vectors
`rankFws_`, `rankOffs_` read as a list of (orientation, offset-index)
pairs. -/
def SeedResults.ranked (s : SeedResults) : List (Bool × Nat) :=
  s.rankFws.zip s.rankOffs

/-- `SeedResults::hitsByRank(r, ...)`: the bucket of rank `r` with its
offset index, offset, and orientation outputs (the seed-length output
reads the omitted sequence vectors and is not modelled). -/
def SeedResults.hitsByRank (s : SeedResults) (r : Nat) : QVal × Nat × Nat × Bool :=
  if s.rankFws.getD r false then
    (s.hitsFw.getD (s.rankOffs.getD r 0) QVal.resetQ,
     s.rankOffs.getD r 0, s.offIdx2off.getD (s.rankOffs.getD r 0) 0, true)
  else
    (s.hitsRc.getD (s.rankOffs.getD r 0) QVal.resetQ,
     s.rankOffs.getD r 0, s.offIdx2off.getD (s.rankOffs.getD r 0) 0, false)

/-- Position of a bucket in the scan order of `SeedResults::sort`:
reverse-complement buckets come first, each orientation by increasing
offset index. -/
def scanPosN (n : Nat) (b : Bool × Nat) : Nat :=
  if b.1 then n + b.2 else b.2

/-- `a` occurs in `l` strictly before some occurrence of `b`. -/
def memBefore {α : Type} (a b : α) (l : List α) : Prop :=
  ∃ l1 l2, l = l1 ++ a :: l2 ∧ b ∈ l2

/-- The number of buckets holding a valid QVal with at least one range;
this is the quantity `SeedResults::repOk` checks `nonzTot_` against. -/
def SeedResults.countNonz (s : SeedResults) : Nat :=
  ((scanOrder s.numOffs).filter fun b =>
    (s.bucket b.1 b.2).vld && decide (0 < (s.bucket b.1 b.2).numRanges)).length

/-- The aggregate-counter invariant of `SeedResults` as checked by
`SeedResults::repOk`: the bucket vectors have `numOffs_` entries,
`nonzTot_` counts the valid buckets with at least one range, and the
counter inequalities and orientation splits hold. -/
def SeedResults.Inv (s : SeedResults) : Prop :=
  s.hitsFw.length = s.numOffs ∧ s.hitsRc.length = s.numOffs ∧
  s.nonzTot = s.countNonz ∧ s.nonzTot ≤ s.numRanges ∧
  s.numRanges ≤ s.numElts ∧
  s.numEltsFw + s.numEltsRc = s.numElts ∧
  s.numRangesFw + s.numRangesRc = s.numRanges

instance (s : SeedResults) : Decidable s.Inv := by
  unfold SeedResults.Inv
  infer_instance

/-- One mutation of a SeedResults object: a `reset` or an `add`. -/
inductive SROp where
  | rst (offIdx2off : List Nat) (numOffs : Nat) : SROp
  | add (qv : QVal) (seedIdx : Nat) (seedFw : Bool) : SROp
deriving DecidableEq

/-- Apply one operation. -/
def SROp.apply (op : SROp) (s : SeedResults) : SeedResults :=
  match op with
  | SROp.rst offs n => s.reset offs n
  | SROp.add qv i fw => s.add qv i fw

/-- The asserted preconditions of each operation: `reset` requires a
positive offset count; `add` requires the offset index in range and,
for a non-empty QVal, that the QVal is valid with no more ranges than
elements (its cache representation invariant) and that the target
bucket is not yet occupied. -/
def SROp.ok (op : SROp) (s : SeedResults) : Bool :=
  match op with
  | SROp.rst _ n => decide (0 < n)
  | SROp.add qv i fw =>
      decide (i < s.numOffs) &&
      (qv.empt ||
        (qv.vld && !(s.bucket fw i).vld && decide (qv.numRanges ≤ qv.numElts)))

/-- Apply a list of operations left to right. -/
def runOps (s : SeedResults) (ops : List SROp) : SeedResults :=
  ops.foldl (fun t op => op.apply t) s

/-- Every operation of the list meets its preconditions in the state it
is applied to. -/
def validRun (s : SeedResults) : List SROp → Bool
  | [] => true
  | op :: rest => op.ok s && validRun (op.apply s) rest

/-- Reading a list after a within-bounds `set`: position `i` holds the
new value, every other position is unchanged. -/
theorem getD_set_of_lt {α : Type} (l : List α) (i j : Nat) (x d : α) (h : i < l.length) :
    (l.set i x).getD j d = if j = i then x else l.getD j d := by
  induction l generalizing i j with
  | nil => exact absurd h (by simp)
  | cons a t ih =>
    cases i with
    | zero =>
      cases j with
      | zero => simp
      | succ j => simp
    | succ i =>
      cases j with
      | zero => simp
      | succ j =>
        have h' : i < t.length := by simpa using h
        simp only [List.set_cons_succ, List.getD_cons_succ]
        rw [ih _ _ h']
        by_cases hj : j = i <;> simp [hj]

/-- An instantiated constraint with one remaining edit and no remaining
insertions: `canInsert` accepts it through the `edits > 0` disjunct. -/
def c1FailCons : Constraint :=
  { Constraint.init with ins := 0, edits := 1, mms := 0, dels := 0,
                         penalty := 5, instantiated := true }

/-- A concrete penalty table: every mismatch or N costs 1, every gap
open or extension costs 2. -/
def c1FailPens : Penalties :=
  { mm := fun _ => 1, n := fun _ => 1, ins := fun _ => 2, del := fun _ => 2 }

/-- Claim C1: at the state with `ins = 0`, `edits = 1`, `penalty = 5`,
`canInsert(0)` returns true, yet `chargeInsert(0)` leaves `ins = -1`,
so the remaining `ins` budget after the charge is negative.  This
contradicts the assertion `assert_geq(ins, 0)` placed at the end of
`chargeInsert` itself (and the `canDelete`/`chargeDelete` pattern,
which requires both counters positive before charging). -/
theorem chargeInsert_drives_ins_negative :
    c1FailCons.canInsert 0 c1FailPens = true ∧
    (c1FailCons.chargeInsert 0 c1FailPens).ins = -1 ∧
    ¬(0 ≤ (c1FailCons.chargeInsert 0 c1FailPens).ins) := by
  refine ⟨by decide, by decide, by decide⟩

/-- Claim C4: `canMismatch` returns true exactly when a mismatch or
edit remains and the penalty budget covers `mm(q)`; and on a permitted
mismatch, `chargeMismatch` decrements `mms` when positive and `edits`
otherwise, subtracts `mm(q)` from the penalty, keeps the three budgets
non-negative, and touches no other field.  Budgets are assumed
non-negative, as every reachable instantiated constraint satisfies. -/
theorem canMismatch_chargeMismatch_spec (c : Constraint) (q : Int) (cm : Penalties)
    (hm : 0 ≤ c.mms) (he : 0 ≤ c.edits) (hi : c.instantiated = true) :
    (c.canMismatch q cm = true ↔ ((0 < c.mms ∨ 0 < c.edits) ∧ cm.mm q ≤ c.penalty)) ∧
    (c.canMismatch q cm = true →
      (0 < c.mms → (c.chargeMismatch q cm).mms = c.mms - 1 ∧
                   (c.chargeMismatch q cm).edits = c.edits) ∧
      (c.mms = 0 → (c.chargeMismatch q cm).mms = 0 ∧
                   (c.chargeMismatch q cm).edits = c.edits - 1) ∧
      (c.chargeMismatch q cm).penalty = c.penalty - cm.mm q ∧
      0 ≤ (c.chargeMismatch q cm).mms ∧
      0 ≤ (c.chargeMismatch q cm).edits ∧
      0 ≤ (c.chargeMismatch q cm).penalty ∧
      (c.chargeMismatch q cm).ins = c.ins ∧
      (c.chargeMismatch q cm).dels = c.dels ∧
      (c.chargeMismatch q cm).editsCeil = c.editsCeil ∧
      (c.chargeMismatch q cm).mmsCeil = c.mmsCeil ∧
      (c.chargeMismatch q cm).insCeil = c.insCeil ∧
      (c.chargeMismatch q cm).delsCeil = c.delsCeil ∧
      (c.chargeMismatch q cm).penaltyCeil = c.penaltyCeil ∧
      (c.chargeMismatch q cm).penConst = c.penConst ∧
      (c.chargeMismatch q cm).penLinear = c.penLinear ∧
      (c.chargeMismatch q cm).instantiated = c.instantiated) := by
  constructor
  · simp [Constraint.canMismatch]
  · intro hcan
    have hcan' : (0 < c.mms ∨ 0 < c.edits) ∧ cm.mm q ≤ c.penalty := by
      simpa [Constraint.canMismatch] using hcan
    by_cases hz : c.mms = 0
    · have hch : c.chargeMismatch q cm
          = { c with edits := c.edits - 1, penalty := c.penalty - cm.mm q } := by
        simp [Constraint.chargeMismatch, hz]
      have hed : 0 < c.edits := by
        rcases hcan'.1 with h | h
        · omega
        · exact h
      rw [hch]
      refine ⟨fun h => absurd h (by omega), fun _ => ⟨hz, rfl⟩, rfl, ?_, ?_, ?_,
              rfl, rfl, rfl, rfl, rfl, rfl, rfl, rfl, rfl, rfl⟩
      · simpa using hm
      · simp
        omega
      · simp
        omega
    · have hch : c.chargeMismatch q cm
          = { c with mms := c.mms - 1, penalty := c.penalty - cm.mm q } := by
        simp [Constraint.chargeMismatch, hz]
      rw [hch]
      refine ⟨fun _ => ⟨rfl, rfl⟩, fun h => absurd h hz, rfl, ?_, ?_, ?_,
              rfl, rfl, rfl, rfl, rfl, rfl, rfl, rfl, rfl, rfl⟩
      · simp
        omega
      · simpa using he
      · simp
        omega

/-- Witness for C4 at a concrete constraint: one mismatch remains, the
charge consumes it. -/
theorem canMismatch_chargeMismatch_spec_w :
    ({ Constraint.init with
        mms := 1, edits := 0, penalty := 4,
        instantiated := true } : Constraint).canMismatch 3 c1FailPens = true ∧
    (({ Constraint.init with
         mms := 1, edits := 0, penalty := 4,
         instantiated := true } : Constraint).chargeMismatch 3 c1FailPens).mms = 0 := by
  have h := (canMismatch_chargeMismatch_spec
    { Constraint.init with mms := 1, edits := 0, penalty := 4, instantiated := true }
    3 c1FailPens (by decide) (by decide) (by decide))
  refine ⟨by decide, ?_⟩
  have h2 := (h.2 (by decide)).1 (by decide)
  simpa using h2.1

/-- Claim C5: `mmSeeds` selects the zero-, one-, and two-mismatch
builders exactly for `mms` 0, 1, 2, and raises the fatal `throw 1` for
every other value instead of returning. -/
theorem mmSeeds_dispatch (mms : Int) :
    (Seed.mmSeeds mms = Except.ok SeedBuilder.zeroMmSeeds ↔ mms = 0) ∧
    (Seed.mmSeeds mms = Except.ok SeedBuilder.oneMmSeeds ↔ mms = 1) ∧
    (Seed.mmSeeds mms = Except.ok SeedBuilder.twoMmSeeds ↔ mms = 2) ∧
    (Seed.mmSeeds mms = Except.error 1 ↔ (mms ≠ 0 ∧ mms ≠ 1 ∧ mms ≠ 2)) := by
  unfold Seed.mmSeeds
  by_cases h0 : mms = 0 <;> by_cases h1 : mms = 1 <;> by_cases h2 : mms = 2 <;>
    simp [h0, h1, h2]

/-- Claim C6: instantiating a not-yet-instantiated constraint sets the
instantiated flag, recomputes `penalty` through the static
`Constraint.instantiate(rdlen, penConst, penLinear)` exactly when
`penConst` differs from the FLT_MAX sentinel, leaves `penalty`
untouched otherwise, changes no other field, and the computed value is
the truncation of `0.5 + penConst + penLinear * rdlen`, a pure
function of those three arguments (floats are modelled as exact
rationals). -/
theorem instantiateSelf_spec (c : Constraint) (rdlen : Nat)
    (h : c.instantiated = false) :
    (c.instantiateSelf rdlen).instantiated = true ∧
    (c.penConst ≠ fltMax →
      (c.instantiateSelf rdlen).penalty
        = Constraint.instantiate rdlen c.penConst c.penLinear) ∧
    (c.penConst = fltMax → (c.instantiateSelf rdlen).penalty = c.penalty) ∧
    Constraint.instantiate rdlen c.penConst c.penLinear
      = ratTrunc (1 / 2 + c.penConst + c.penLinear * (rdlen : Rat)) ∧
    (c.instantiateSelf rdlen).edits = c.edits ∧
    (c.instantiateSelf rdlen).mms = c.mms ∧
    (c.instantiateSelf rdlen).ins = c.ins ∧
    (c.instantiateSelf rdlen).dels = c.dels ∧
    (c.instantiateSelf rdlen).editsCeil = c.editsCeil ∧
    (c.instantiateSelf rdlen).mmsCeil = c.mmsCeil ∧
    (c.instantiateSelf rdlen).insCeil = c.insCeil ∧
    (c.instantiateSelf rdlen).delsCeil = c.delsCeil ∧
    (c.instantiateSelf rdlen).penaltyCeil = c.penaltyCeil ∧
    (c.instantiateSelf rdlen).penConst = c.penConst ∧
    (c.instantiateSelf rdlen).penLinear = c.penLinear := by
  by_cases hC : c.penConst = fltMax <;>
    simp [Constraint.instantiateSelf, Constraint.instantiate, hC]

/-- Witness for C6: a constraint with `penConst = 3`, `penLinear = 0`
instantiated against read length 4 takes penalty `trunc(3.5) = 3`. -/
theorem instantiateSelf_spec_w :
    (({ Constraint.init with
         penConst := 3, penLinear := 0 } : Constraint).instantiateSelf 4).instantiated
      = true ∧
    (({ Constraint.init with
         penConst := 3, penLinear := 0 } : Constraint).instantiateSelf 4).penalty
      = 3 := by
  have h := instantiateSelf_spec
    { Constraint.init with penConst := 3, penLinear := 0 } 4 (by decide)
  refine ⟨h.1, ?_⟩
  rw [h.2.1 (by decide)]
  norm_num [Constraint.instantiate, ratTrunc]

/-- Claim C8: `merge` sums the eight counters mod 2^64; merging into a
freshly reset object copies in-range counters exactly, and merge is
commutative and associative on the counter vectors. -/
theorem metrics_merge_spec (a m c : SeedSearchMetrics) :
    ((a.merge m).seedsearch = (a.seedsearch + m.seedsearch) % 2 ^ 64 ∧
     (a.merge m).possearch = (a.possearch + m.possearch) % 2 ^ 64 ∧
     (a.merge m).intrahit = (a.intrahit + m.intrahit) % 2 ^ 64 ∧
     (a.merge m).interhit = (a.interhit + m.interhit) % 2 ^ 64 ∧
     (a.merge m).filteredseed = (a.filteredseed + m.filteredseed) % 2 ^ 64 ∧
     (a.merge m).ooms = (a.ooms + m.ooms) % 2 ^ 64 ∧
     (a.merge m).bwops = (a.bwops + m.bwops) % 2 ^ 64 ∧
     (a.merge m).bweds = (a.bweds + m.bweds) % 2 ^ 64) ∧
    (m.inRange → (a.resetM).merge m = m) ∧
    a.merge m = m.merge a ∧
    (a.merge m).merge c = a.merge (m.merge c) := by
  refine ⟨⟨rfl, rfl, rfl, rfl, rfl, rfl, rfl, rfl⟩, ?_, ?_, ?_⟩
  · rintro ⟨h1, h2, h3, h4, h5, h6, h7, h8⟩
    cases m
    simp only [SeedSearchMetrics.merge, SeedSearchMetrics.resetM,
      SeedSearchMetrics.mk.injEq]
    refine ⟨?_, ?_, ?_, ?_, ?_, ?_, ?_, ?_⟩ <;> simp_all <;> omega
  · cases a; cases m
    simp only [SeedSearchMetrics.merge, SeedSearchMetrics.mk.injEq]
    refine ⟨?_, ?_, ?_, ?_, ?_, ?_, ?_, ?_⟩ <;> omega
  · cases a; cases m; cases c
    simp only [SeedSearchMetrics.merge, SeedSearchMetrics.mk.injEq]
    refine ⟨?_, ?_, ?_, ?_, ?_, ?_, ?_, ?_⟩ <;> omega

/-- Witness for C8: merging a concrete metrics record into a freshly
reset one copies it. -/
theorem metrics_merge_spec_w :
    (({ seedsearch := 1, possearch := 2, intrahit := 3, interhit := 4,
        filteredseed := 5, ooms := 6, bwops := 7,
        bweds := 8 } : SeedSearchMetrics).resetM).merge
      { seedsearch := 1, possearch := 2, intrahit := 3, interhit := 4,
        filteredseed := 5, ooms := 6, bwops := 7, bweds := 8 }
    = { seedsearch := 1, possearch := 2, intrahit := 3, interhit := 4,
        filteredseed := 5, ooms := 6, bwops := 7, bweds := 8 } :=
  ((metrics_merge_spec
    { seedsearch := 1, possearch := 2, intrahit := 3, interhit := 4,
      filteredseed := 5, ooms := 6, bwops := 7, bweds := 8 }
    { seedsearch := 1, possearch := 2, intrahit := 3, interhit := 4,
      filteredseed := 5, ooms := 6, bwops := 7, bweds := 8 }
    { seedsearch := 1, possearch := 2, intrahit := 3, interhit := 4,
      filteredseed := 5, ooms := 6, bwops := 7, bweds := 8 }).2.1
    (by refine ⟨?_, ?_, ?_, ?_, ?_, ?_, ?_, ?_⟩ <;> norm_num))

/-- Claim C9: adding an empty QVal leaves the whole SeedResults object
unchanged: the early return fires before any bucket store or counter
update. -/
theorem add_empty_noop (s : SeedResults) (qv : QVal) (seedIdx : Nat) (fw : Bool)
    (h : qv.empt = true) : s.add qv seedIdx fw = s := by
  simp [SeedResults.add, h]

/-- An empty starting SeedResults object. -/
def emptySR : SeedResults :=
  { hitsFw := [], hitsRc := [], sortedFw := [], sortedRc := [],
    nonzTot := 0, nonzFw := 0, nonzRc := 0, numRanges := 0, numElts := 0,
    numRangesFw := 0, numEltsFw := 0, numRangesRc := 0, numEltsRc := 0,
    offIdx2off := [], rankOffs := [], rankFws := [], sorted := false,
    numOffs := 0 }

/-- A SeedResults object reset for two seed offsets. -/
def sampSR : SeedResults := emptySR.reset [0, 5] 2

/-- A concrete non-empty valid QVal with one range of three elements. -/
def sampQ : QVal := { numElts := 3, numRanges := 1, vld := true, empt := false }

/-- Witness for C9: adding a reset (empty) QVal to the sample state
changes nothing. -/
theorem add_empty_noop_w : sampSR.add QVal.resetQ 1 false = sampSR :=
  add_empty_noop sampSR QVal.resetQ 1 false rfl

/-- Claim C7: adding a non-empty valid QVal to a reset SeedResults
stores it in the bucket selected by the orientation and offset index,
adds its element and range counts to the total and per-orientation
counters, and bumps the non-zero-bucket counts exactly when it has at
least one range.  The other orientation is untouched. -/
theorem add_spec (s : SeedResults) (qv : QVal) (seedIdx : Nat) (fw : Bool)
    (hne : qv.empt = false) (hv : qv.vld = true)
    (hidx : seedIdx < s.numOffs)
    (hlf : s.hitsFw.length = s.numOffs) (hlr : s.hitsRc.length = s.numOffs)
    (hunset : (s.bucket fw seedIdx).vld = false) :
    (s.add qv seedIdx fw).bucket fw seedIdx = qv ∧
    (s.add qv seedIdx fw).numElts = s.numElts + qv.numElts ∧
    (s.add qv seedIdx fw).numRanges = s.numRanges + qv.numRanges ∧
    (s.add qv seedIdx fw).nonzTot
      = (if 0 < qv.numRanges then s.nonzTot + 1 else s.nonzTot) ∧
    (fw = true →
      (s.add qv seedIdx fw).hitsFw = s.hitsFw.set seedIdx qv ∧
      (s.add qv seedIdx fw).hitsRc = s.hitsRc ∧
      (s.add qv seedIdx fw).numEltsFw = s.numEltsFw + qv.numElts ∧
      (s.add qv seedIdx fw).numRangesFw = s.numRangesFw + qv.numRanges ∧
      (s.add qv seedIdx fw).nonzFw
        = (if 0 < qv.numRanges then s.nonzFw + 1 else s.nonzFw) ∧
      (s.add qv seedIdx fw).numEltsRc = s.numEltsRc ∧
      (s.add qv seedIdx fw).numRangesRc = s.numRangesRc ∧
      (s.add qv seedIdx fw).nonzRc = s.nonzRc) ∧
    (fw = false →
      (s.add qv seedIdx fw).hitsRc = s.hitsRc.set seedIdx qv ∧
      (s.add qv seedIdx fw).hitsFw = s.hitsFw ∧
      (s.add qv seedIdx fw).numEltsRc = s.numEltsRc + qv.numElts ∧
      (s.add qv seedIdx fw).numRangesRc = s.numRangesRc + qv.numRanges ∧
      (s.add qv seedIdx fw).nonzRc
        = (if 0 < qv.numRanges then s.nonzRc + 1 else s.nonzRc) ∧
      (s.add qv seedIdx fw).numEltsFw = s.numEltsFw ∧
      (s.add qv seedIdx fw).numRangesFw = s.numRangesFw ∧
      (s.add qv seedIdx fw).nonzFw = s.nonzFw) := by
  cases fw with
  | true =>
    have hidx1 : seedIdx < s.hitsFw.length := by rw [hlf]; exact hidx
    have hb : s.add qv seedIdx true =
        { s with hitsFw := s.hitsFw.set seedIdx qv,
                 numEltsFw := s.numEltsFw + qv.numElts,
                 numRangesFw := s.numRangesFw + qv.numRanges,
                 nonzFw := if 0 < qv.numRanges then s.nonzFw + 1 else s.nonzFw,
                 numElts := s.numElts + qv.numElts,
                 numRanges := s.numRanges + qv.numRanges,
                 nonzTot := if 0 < qv.numRanges then s.nonzTot + 1 else s.nonzTot } := by
      simp [SeedResults.add, hne]
    rw [hb]
    refine ⟨?_, rfl, rfl, rfl, ?_, ?_⟩
    · simp only [SeedResults.bucket, if_true]
      rw [getD_set_of_lt _ _ _ _ _ hidx1]
      simp
    · intro hc
      exact ⟨rfl, rfl, rfl, rfl, rfl, rfl, rfl, rfl⟩
    · intro hc
      cases hc
  | false =>
    have hidx1 : seedIdx < s.hitsRc.length := by rw [hlr]; exact hidx
    have hb : s.add qv seedIdx false =
        { s with hitsRc := s.hitsRc.set seedIdx qv,
                 numEltsRc := s.numEltsRc + qv.numElts,
                 numRangesRc := s.numRangesRc + qv.numRanges,
                 nonzRc := if 0 < qv.numRanges then s.nonzRc + 1 else s.nonzRc,
                 numElts := s.numElts + qv.numElts,
                 numRanges := s.numRanges + qv.numRanges,
                 nonzTot := if 0 < qv.numRanges then s.nonzTot + 1 else s.nonzTot } := by
      simp [SeedResults.add, hne]
    rw [hb]
    refine ⟨?_, rfl, rfl, rfl, ?_, ?_⟩
    · simp only [SeedResults.bucket, Bool.false_eq_true, if_false]
      rw [getD_set_of_lt _ _ _ _ _ hidx1]
      simp
    · intro hc
      cases hc
    · intro hc
      exact ⟨rfl, rfl, rfl, rfl, rfl, rfl, rfl, rfl⟩

/-- Witness for C7: storing the sample QVal forward at offset index 0
of the sample reset state. -/
theorem add_spec_w :
    (sampSR.add sampQ 0 true).bucket true 0 = sampQ ∧
    (sampSR.add sampQ 0 true).numElts = sampSR.numElts + sampQ.numElts :=
  ⟨(add_spec sampSR sampQ 0 true rfl rfl (by decide) (by decide) (by decide)
      (by decide)).1,
   (add_spec sampSR sampQ 0 true rfl rfl (by decide) (by decide) (by decide)
      (by decide)).2.1⟩

/-- The scan step restricted to candidates: replace the accumulator
when the element count is strictly below the current minimum. -/
def SeedResults.minStep (s : SeedResults) (acc : Nat × Nat × Bool) (b : Bool × Nat) :
    Nat × Nat × Bool :=
  if s.bval b < acc.1 then (s.bval b, b.2, b.1) else acc

/-- The first element of the list attaining the minimal element count,
starting from a current best `u`; strict comparison keeps the earlier
of two tied buckets. -/
def SeedResults.sfirstMin (s : SeedResults) : List (Bool × Nat) → (Bool × Nat) → (Bool × Nat)
  | [], u => u
  | b :: rest, u =>
    if s.bval b < s.bval u then s.sfirstMin rest b else s.sfirstMin rest u

/-- Folding the raw scan step over any list equals folding the
candidate-only step over the filtered list. -/
theorem foldl_scanStep_eq (s : SeedResults) :
    ∀ (L : List (Bool × Nat)) (acc : Nat × Nat × Bool),
      L.foldl s.scanStep acc = (L.filter s.isCand).foldl s.minStep acc := by
  intro L
  induction L with
  | nil => intro acc; rfl
  | cons b t ih =>
    intro acc
    by_cases hc : s.isCand b = true
    · have hstep : s.scanStep acc b = s.minStep acc b := by
        by_cases hlt : s.bval b < acc.1 <;>
          simp [SeedResults.scanStep, SeedResults.minStep, hc, hlt]
      rw [List.foldl_cons, hstep, List.filter_cons_of_pos hc, List.foldl_cons, ih]
    · have hstep : s.scanStep acc b = acc := by
        simp [SeedResults.scanStep, hc]
      rw [List.foldl_cons, hstep, List.filter_cons_of_neg (by simpa using hc), ih]

/-- Folding the candidate-only step from a best-so-far accumulator
computes the first minimum. -/
theorem foldl_minStep_eq_sfirstMin (s : SeedResults) :
    ∀ (C : List (Bool × Nat)) (u : Bool × Nat),
      C.foldl s.minStep (s.bval u, u.2, u.1)
        = (s.bval (s.sfirstMin C u), (s.sfirstMin C u).2, (s.sfirstMin C u).1) := by
  intro C
  induction C with
  | nil => intro u; rfl
  | cons b t ih =>
    intro u
    by_cases hlt : s.bval b < s.bval u
    · rw [List.foldl_cons,
        show s.minStep (s.bval u, u.2, u.1) b = (s.bval b, b.2, b.1) from by
          simp [SeedResults.minStep, hlt],
        ih b]
      simp [SeedResults.sfirstMin, hlt]
    · rw [List.foldl_cons,
        show s.minStep (s.bval u, u.2, u.1) b = (s.bval u, u.2, u.1) from by
          simp [SeedResults.minStep, hlt],
        ih u]
      simp [SeedResults.sfirstMin, hlt]

/-- The first minimum is the start value or a list element. -/
theorem sfirstMin_mem (s : SeedResults) :
    ∀ (C : List (Bool × Nat)) (u : Bool × Nat), s.sfirstMin C u ∈ u :: C := by
  intro C
  induction C with
  | nil => intro u; simp [SeedResults.sfirstMin]
  | cons b t ih =>
    intro u
    by_cases hlt : s.bval b < s.bval u
    · simp only [SeedResults.sfirstMin, hlt, if_pos]
      rcases List.mem_cons.mp (ih b) with h | h
      · rw [h]; exact List.mem_cons_of_mem u (List.mem_cons_self b t)
      · exact List.mem_cons_of_mem u (List.mem_cons_of_mem b h)
    · simp only [SeedResults.sfirstMin, hlt, if_neg, if_false]
      rcases List.mem_cons.mp (ih u) with h | h
      · rw [h]; exact List.mem_cons_self u (b :: t)
      · exact List.mem_cons_of_mem u (List.mem_cons_of_mem b h)

/-- The first minimum has element count at most that of the start value
and of every list element. -/
theorem sfirstMin_le (s : SeedResults) :
    ∀ (C : List (Bool × Nat)) (u : Bool × Nat),
      ∀ b ∈ u :: C, s.bval (s.sfirstMin C u) ≤ s.bval b := by
  intro C
  induction C with
  | nil =>
    intro u b hb
    simp only [List.mem_singleton] at hb
    subst hb
    exact Nat.le_refl _
  | cons c t ih =>
    intro u b hb
    rcases List.mem_cons.mp hb with hb | hb
    case inl =>
      subst hb
      by_cases hlt : s.bval c < s.bval b
      · simp only [SeedResults.sfirstMin, hlt, if_pos]
        have h1 := ih c c (List.mem_cons_self c t)
        exact Nat.le_of_lt (Nat.lt_of_le_of_lt h1 hlt)
      · simp only [SeedResults.sfirstMin, hlt, if_neg, if_false]
        exact ih b b (List.mem_cons_self b t)
    case inr =>
      rcases List.mem_cons.mp hb with hb | hb
      · subst hb
        by_cases hlt : s.bval b < s.bval u
        · simp only [SeedResults.sfirstMin, hlt, if_pos]
          exact ih b b (List.mem_cons_self b t)
        · simp only [SeedResults.sfirstMin, hlt, if_neg, if_false]
          have h1 := ih u u (List.mem_cons_self u t)
          exact Nat.le_trans h1 (Nat.le_of_not_lt hlt)
      · by_cases hlt : s.bval c < s.bval u
        · simp only [SeedResults.sfirstMin, hlt, if_pos]
          exact ih c b (List.mem_cons_of_mem c hb)
        · simp only [SeedResults.sfirstMin, hlt, if_neg, if_false]
          exact ih u b (List.mem_cons_of_mem u hb)

/-- The first minimum splits its input so that everything strictly
before it has strictly larger element count: with a strict comparison,
a later tied bucket never displaces an earlier one. -/
theorem sfirstMin_split (s : SeedResults) :
    ∀ (C : List (Bool × Nat)) (u : Bool × Nat),
      ∃ l1 l2, u :: C = l1 ++ (s.sfirstMin C u) :: l2 ∧
        ∀ b ∈ l1, s.bval (s.sfirstMin C u) < s.bval b := by
  intro C
  induction C with
  | nil =>
    intro u
    exact ⟨[], [], rfl, by simp⟩
  | cons c t ih =>
    intro u
    by_cases hlt : s.bval c < s.bval u
    · simp only [SeedResults.sfirstMin, hlt, if_pos]
      obtain ⟨l1, l2, hsplit, hgt⟩ := ih c
      refine ⟨u :: l1, l2, by rw [List.cons_append, ← hsplit], ?_⟩
      intro b hb
      rcases List.mem_cons.mp hb with hb | hb
      · subst hb
        have h1 := sfirstMin_le s t c c (List.mem_cons_self c t)
        exact Nat.lt_of_le_of_lt h1 hlt
      · exact hgt b hb
    · simp only [SeedResults.sfirstMin, hlt, if_neg, if_false]
      obtain ⟨l1, l2, hsplit, hgt⟩ := ih u
      cases l1 with
      | nil =>
        simp only [List.nil_append] at hsplit
        have hu : s.sfirstMin t u = u := (List.cons.injEq _ _ _ _ ▸ hsplit).1.symm
        refine ⟨[], c :: t, ?_, by simp⟩
        rw [hu]
        simp
      | cons a l1t =>
        simp only [List.cons_append, List.cons.injEq] at hsplit
        obtain ⟨hau, hteq⟩ := hsplit
        subst hau
        refine ⟨u :: c :: l1t, l2, ?_, ?_⟩
        · rw [List.cons_append, List.cons_append, ← hteq]
        · intro b hb
          have hru : s.bval (s.sfirstMin t u) < s.bval u :=
            hgt u (List.mem_cons_self u l1t)
          rcases List.mem_cons.mp hb with hb | hb
          · subst hb; exact hru
          · rcases List.mem_cons.mp hb with hb | hb
            · subst hb
              exact Nat.lt_of_lt_of_le hru (Nat.le_of_not_lt hlt)
            · exact hgt b (List.mem_cons_of_mem u hb)

/-- When at least one candidate exists and every candidate has element
count below the 0xffffffff sentinel, the double scan returns the first
candidate of minimal element count. -/
theorem selectMin_eq (s : SeedResults) (c : Bool × Nat) (rest : List (Bool × Nat))
    (hcr : s.cands = c :: rest)
    (hsent : ∀ b ∈ s.cands, s.bval b < 4294967295) :
    s.selectMin
      = (s.bval (s.sfirstMin rest c), (s.sfirstMin rest c).2, (s.sfirstMin rest c).1) := by
  unfold SeedResults.selectMin
  rw [foldl_scanStep_eq,
    show (scanOrder s.numOffs).filter s.isCand = s.cands from rfl, hcr,
    List.foldl_cons]
  have hclt : s.bval c < 4294967295 := hsent c (by rw [hcr]; exact List.mem_cons_self c rest)
  rw [show s.minStep (4294967295, 0, true) c = (s.bval c, c.2, c.1) from by
    simp [SeedResults.minStep, hclt]]
  exact foldl_minStep_eq_sfirstMin s rest c

/-- Membership in the scan order is exactly the bound on the offset
index. -/
theorem mem_scanOrder (n : Nat) (b : Bool × Nat) : b ∈ scanOrder n ↔ b.2 < n := by
  obtain ⟨bf, bi⟩ := b
  cases bf <;> simp [scanOrder]

/-- The scan order lists each bucket once. -/
theorem scanOrder_nodup (n : Nat) : (scanOrder n).Nodup := by
  refine List.Nodup.append ?_ ?_ ?_
  · exact (List.nodup_range n).map (fun a b h => by simpa using h)
  · exact (List.nodup_range n).map (fun a b h => by simpa using h)
  · intro a ha hb
    obtain ⟨i, _, hi⟩ := List.mem_map.mp ha
    obtain ⟨j, _, hj⟩ := List.mem_map.mp hb
    rw [← hi] at hj
    simpa using hj

/-- The scan order is strictly increasing in scan position. -/
theorem scanOrder_pairwise (n : Nat) :
    (scanOrder n).Pairwise (fun a b => scanPosN n a < scanPosN n b) := by
  unfold scanOrder
  rw [List.pairwise_append]
  refine ⟨?_, ?_, ?_⟩
  · rw [List.pairwise_map]
    exact (List.pairwise_lt_range n).imp (fun h => by simpa [scanPosN] using h)
  · rw [List.pairwise_map]
    refine (List.pairwise_lt_range n).imp (fun h => ?_)
    simp only [scanPosN, if_pos]
    omega
  · intro a ha b hb
    obtain ⟨i, hi, hieq⟩ := List.mem_map.mp ha
    obtain ⟨j, _, hjeq⟩ := List.mem_map.mp hb
    rw [← hieq, ← hjeq]
    simp only [scanPosN, if_pos, Bool.false_eq_true, if_false]
    have : i < n := List.mem_range.mp hi
    omega

/-- Reading a replicated list with the replicated element as default
always yields that element. -/
theorem getD_replicate {α : Type} (n i : Nat) (a : α) :
    (List.replicate n a).getD i a = a := by
  induction n generalizing i with
  | zero => simp [List.getD]
  | succ n ih => cases i <;> simp [List.replicate, List.getD, ih]

/-- Zipping after appending one element to two lists of equal length. -/
theorem zip_append_pair {α β : Type} :
    ∀ (l1 : List α) (l2 : List β) (x : α) (y : β), l1.length = l2.length →
      (l1 ++ [x]).zip (l2 ++ [y]) = l1.zip l2 ++ [(x, y)] := by
  intro l1
  induction l1 with
  | nil =>
    intro l2 x y h
    cases l2 with
    | nil => rfl
    | cons b t2 => simp at h
  | cons a t ih =>
    intro l2 x y h
    cases l2 with
    | nil => simp at h
    | cons b t2 =>
      simp only [List.cons_append, List.zip_cons_cons, List.cons.injEq, true_and]
      exact ih t2 x y (by simpa using h)

/-- A list with no duplicates is a permutation of one chosen member
consed onto the rest. -/
theorem perm_cons_filter_ne {α : Type} [DecidableEq α] :
    ∀ (l : List α) (w : α), l.Nodup → w ∈ l →
      l.Perm (w :: l.filter (fun b => decide (b ≠ w))) := by
  intro l
  induction l with
  | nil => intro w _ hw; cases hw
  | cons a t ih =>
    intro w hnd hw
    have hat : a ∉ t := (List.nodup_cons.mp hnd).1
    have hndt : t.Nodup := (List.nodup_cons.mp hnd).2
    rcases List.mem_cons.mp hw with hwa | hwt
    · subst hwa
      have hfe : t.filter (fun b => decide (b ≠ w)) = t := by
        rw [List.filter_eq_self]
        intro b hb
        simp only [decide_eq_true_eq]
        intro hbw
        exact hat (hbw ▸ hb)
      simp only [List.filter_cons]
      have : (decide (w ≠ w)) = false := by simp
      rw [this]
      simp only [if_false, hfe, Bool.false_eq_true]
      exact List.Perm.refl _
    · have haw : a ≠ w := fun h => hat (h ▸ hwt)
      have hfc : (a :: t).filter (fun b => decide (b ≠ w))
          = a :: t.filter (fun b => decide (b ≠ w)) := by
        simp only [List.filter_cons]
        rw [show (decide (a ≠ w)) = true from by simp [haw]]
        simp
      rw [hfc]
      have hstep := ih w hndt hwt
      exact (hstep.cons a).trans (List.Perm.swap w a _)

/-- One sort iteration does not touch the buckets, the bucket count,
the non-zero total, or the offset map. -/
theorem sortStep_frame (s : SeedResults) :
    (s.sortStep).hitsFw = s.hitsFw ∧ (s.sortStep).hitsRc = s.hitsRc ∧
    (s.sortStep).numOffs = s.numOffs ∧ (s.sortStep).nonzTot = s.nonzTot ∧
    (s.sortStep).offIdx2off = s.offIdx2off := by
  cases hsel : s.selectMin.2.2 <;> simp [SeedResults.sortStep, hsel]

/-- One sort iteration preserves the lengths of the sorted-flag
vectors. -/
theorem sortStep_flagLen (s : SeedResults) :
    (s.sortStep).sortedFw.length = s.sortedFw.length ∧
    (s.sortStep).sortedRc.length = s.sortedRc.length := by
  cases hsel : s.selectMin.2.2 <;> simp [SeedResults.sortStep, hsel]

/-- One sort iteration leaves every bucket unchanged. -/
theorem sortStep_bucket (s : SeedResults) (fw : Bool) (i : Nat) :
    (s.sortStep).bucket fw i = s.bucket fw i := by
  obtain ⟨h1, h2, _, _, _⟩ := sortStep_frame s
  unfold SeedResults.bucket
  cases fw <;> simp [h1, h2]

/-- One sort iteration leaves every bucket element count unchanged. -/
theorem sortStep_bval (s : SeedResults) (b : Bool × Nat) :
    (s.sortStep).bval b = s.bval b := by
  unfold SeedResults.bval
  rw [sortStep_bucket]

/-- One sort iteration appends the located pair to the ranked sequence
and keeps the two rank vectors aligned. -/
theorem sortStep_ranked (s : SeedResults) (h : s.rankFws.length = s.rankOffs.length) :
    (s.sortStep).ranked = s.ranked ++ [(s.selectMin.2.2, s.selectMin.2.1)] ∧
    (s.sortStep).rankFws.length = (s.sortStep).rankOffs.length := by
  have hz := zip_append_pair s.rankFws s.rankOffs (s.selectMin.2.2) (s.selectMin.2.1) h
  cases hsel : s.selectMin.2.2 with
  | false =>
    have hrec : s.sortStep
        = { s with sortedRc := s.sortedRc.set (s.selectMin.2.1) true,
                   rankOffs := s.rankOffs ++ [s.selectMin.2.1],
                   rankFws := s.rankFws ++ [false] } := by
      simp [SeedResults.sortStep, hsel]
    rw [hrec]
    unfold SeedResults.ranked
    constructor
    · rw [hsel] at hz
      exact hz
    · simp [h]
  | true =>
    have hrec : s.sortStep
        = { s with sortedFw := s.sortedFw.set (s.selectMin.2.1) true,
                   rankOffs := s.rankOffs ++ [s.selectMin.2.1],
                   rankFws := s.rankFws ++ [true] } := by
      simp [SeedResults.sortStep, hsel]
    rw [hrec]
    unfold SeedResults.ranked
    constructor
    · rw [hsel] at hz
      exact hz
    · simp [h]

/-- After one sort iteration that located bucket `u`, the sorted flag
of `u` reads true and every other flag is unchanged. -/
theorem sortStep_sortedFlag (s : SeedResults) (u : Bool × Nat)
    (hsel : s.selectMin = (s.bval u, u.2, u.1))
    (hlf : s.sortedFw.length = s.numOffs) (hlr : s.sortedRc.length = s.numOffs)
    (hu2 : u.2 < s.numOffs) (fw : Bool) (i : Nat) :
    (s.sortStep).sortedFlag fw i
      = if fw = u.1 ∧ i = u.2 then true else s.sortedFlag fw i := by
  cases hu1 : u.1 with
  | true =>
    have hrec : s.sortStep
        = { s with sortedFw := s.sortedFw.set u.2 true,
                   rankOffs := s.rankOffs ++ [u.2],
                   rankFws := s.rankFws ++ [true] } := by
      simp [SeedResults.sortStep, hsel, hu1]
    rw [hrec]
    unfold SeedResults.sortedFlag
    cases fw with
    | true =>
      simp only [if_true]
      rw [getD_set_of_lt _ _ _ _ _ (by rw [hlf]; exact hu2)]
      by_cases hi : i = u.2 <;> simp [hi]
    | false =>
      simp only [Bool.false_eq_true, if_false]
      rw [if_neg (by simp)]
  | false =>
    have hrec : s.sortStep
        = { s with sortedRc := s.sortedRc.set u.2 true,
                   rankOffs := s.rankOffs ++ [u.2],
                   rankFws := s.rankFws ++ [false] } := by
      simp [SeedResults.sortStep, hsel, hu1]
    rw [hrec]
    unfold SeedResults.sortedFlag
    cases fw with
    | false =>
      simp only [Bool.false_eq_true, if_false]
      rw [getD_set_of_lt _ _ _ _ _ (by rw [hlr]; exact hu2)]
      by_cases hi : i = u.2 <;> simp [hi]
    | true =>
      simp only [if_true]
      rw [if_neg (by simp)]

/-- After one sort iteration that located bucket `u`, a bucket is a
candidate iff it was one before and is not `u`. -/
theorem sortStep_isCand (s : SeedResults) (u : Bool × Nat)
    (hsel : s.selectMin = (s.bval u, u.2, u.1))
    (hlf : s.sortedFw.length = s.numOffs) (hlr : s.sortedRc.length = s.numOffs)
    (hu2 : u.2 < s.numOffs) (b : Bool × Nat) :
    (s.sortStep).isCand b = (s.isCand b && decide (b ≠ u)) := by
  unfold SeedResults.isCand
  rw [sortStep_bval, sortStep_bucket, sortStep_sortedFlag s u hsel hlf hlr hu2]
  by_cases hb : b = u
  · subst hb
    simp
  · have hcond : ¬(b.1 = u.1 ∧ b.2 = u.2) := by
      intro hc
      apply hb
      obtain ⟨bf, bi⟩ := b
      obtain ⟨uf, ui⟩ := u
      simp only at hc
      rw [hc.1, hc.2]
    rw [if_neg hcond, show decide (b ≠ u) = true from by simp [hb], Bool.and_true]

/-- After one sort iteration that located bucket `u`, the candidate
list is the previous one with `u` removed. -/
theorem sortStep_cands (s : SeedResults) (u : Bool × Nat)
    (hsel : s.selectMin = (s.bval u, u.2, u.1))
    (hlf : s.sortedFw.length = s.numOffs) (hlr : s.sortedRc.length = s.numOffs)
    (hu2 : u.2 < s.numOffs) :
    (s.sortStep).cands = s.cands.filter (fun b => decide (b ≠ u)) := by
  unfold SeedResults.cands
  rw [(sortStep_frame s).2.2.1]
  rw [List.filter_congr (fun b _ => sortStep_isCand s u hsel hlf hlr hu2 b)]
  rw [List.filter_filter]
  apply List.filter_congr
  intro b _
  rw [Bool.and_comm]

/-- Correctness of the selection-sort loop: starting from any state
whose candidate list is duplicate-free, listed in strictly increasing
scan position, and below the size sentinel, running the loop for
exactly the number of candidates appends to the ranked sequence a
permutation of the candidates in non-decreasing element count, ranking
scan-earlier buckets first among ties, and touches no bucket. -/
theorem sortGo_spec (k : Nat) :
    ∀ (s : SeedResults),
      s.sortedFw.length = s.numOffs →
      s.sortedRc.length = s.numOffs →
      s.rankFws.length = s.rankOffs.length →
      s.cands.Nodup →
      s.cands.Pairwise (fun a b => scanPosN s.numOffs a < scanPosN s.numOffs b) →
      (∀ b ∈ s.cands, s.bval b < 4294967295) →
      k = s.cands.length →
      ∃ new : List (Bool × Nat),
        (s.sortGo k).ranked = s.ranked ++ new ∧
        (s.sortGo k).hitsFw = s.hitsFw ∧
        (s.sortGo k).hitsRc = s.hitsRc ∧
        (s.sortGo k).numOffs = s.numOffs ∧
        (s.sortGo k).offIdx2off = s.offIdx2off ∧
        new.Perm s.cands ∧
        new.Pairwise (fun a b => s.bval a ≤ s.bval b) ∧
        (∀ b1 b2, b1 ∈ s.cands → b2 ∈ s.cands → s.bval b1 = s.bval b2 →
          scanPosN s.numOffs b1 < scanPosN s.numOffs b2 → memBefore b1 b2 new) := by
  induction k with
  | zero =>
    intro s h1 h2 h3 h4 h5 h6 hk
    have hc : s.cands = [] := List.eq_nil_of_length_eq_zero hk.symm
    refine ⟨[], by simp [SeedResults.sortGo], rfl, rfl, rfl, rfl,
      by rw [hc], List.Pairwise.nil, ?_⟩
    intro b1 b2 hb1 hb2 heq hpos
    rw [hc] at hb1
    cases hb1
  | succ k ih =>
    intro s h1 h2 h3 h4 h5 h6 hk
    obtain ⟨c, rest, hcr⟩ : ∃ c rest, s.cands = c :: rest := by
      cases hcl : s.cands with
      | nil => rw [hcl] at hk; simp at hk
      | cons c rest => exact ⟨c, rest, rfl⟩
    set u := s.sfirstMin rest c with hudef
    have hsel : s.selectMin = (s.bval u, u.2, u.1) := selectMin_eq s c rest hcr h6
    have humem : u ∈ s.cands := by rw [hcr]; exact sfirstMin_mem s rest c
    have hule : ∀ b ∈ s.cands, s.bval u ≤ s.bval b := by
      rw [hcr]; exact sfirstMin_le s rest c
    obtain ⟨l1, l2, hsplit, hl1gt⟩ := sfirstMin_split s rest c
    rw [← hudef] at hsplit hl1gt
    rw [← hcr] at hsplit
    have hu2 : u.2 < s.numOffs := by
      have hmf : u ∈ (scanOrder s.numOffs).filter s.isCand := humem
      exact (mem_scanOrder _ _).mp (List.mem_of_mem_filter hmf)
    obtain ⟨hfF, hfR, hfN, hfZ, hfO⟩ := sortStep_frame s
    obtain ⟨hrank, hlenS⟩ := sortStep_ranked s h3
    have hcands2 := sortStep_cands s u hsel h1 h2 hu2
    have hpermc : s.cands.Perm (u :: s.cands.filter (fun b => decide (b ≠ u))) :=
      perm_cons_filter_ne s.cands u h4 humem
    have hbv : ∀ b, (s.sortStep).bval b = s.bval b := sortStep_bval s
    have h1s : (s.sortStep).sortedFw.length = (s.sortStep).numOffs := by
      rw [(sortStep_flagLen s).1, hfN]; exact h1
    have h2s : (s.sortStep).sortedRc.length = (s.sortStep).numOffs := by
      rw [(sortStep_flagLen s).2, hfN]; exact h2
    have h4s : (s.sortStep).cands.Nodup := by
      rw [hcands2]; exact h4.filter _
    have h5s : (s.sortStep).cands.Pairwise
        (fun a b => scanPosN (s.sortStep).numOffs a < scanPosN (s.sortStep).numOffs b) := by
      rw [hcands2, hfN]
      exact List.Pairwise.sublist (List.filter_sublist _) h5
    have h6s : ∀ b ∈ (s.sortStep).cands, (s.sortStep).bval b < 4294967295 := by
      intro b hb
      rw [hbv]
      rw [hcands2] at hb
      exact h6 b (List.mem_of_mem_filter hb)
    have hks : k = (s.sortStep).cands.length := by
      rw [hcands2]
      have hlenp := hpermc.length_eq
      simp only [List.length_cons] at hlenp
      omega
    obtain ⟨new, hR, hF, hC, hN, hO, hP, hPW, hS⟩ :=
      ih (s.sortStep) h1s h2s hlenS h4s h5s h6s hks
    have hgo : s.sortGo (k + 1) = (s.sortStep).sortGo k := rfl
    have hP2 : new.Perm (s.cands.filter (fun b => decide (b ≠ u))) := by
      rw [hcands2] at hP; exact hP
    refine ⟨u :: new, ?_, ?_, ?_, ?_, ?_, ?_, ?_, ?_⟩
    · rw [hgo, hR, hrank, hsel]
      simp
    · rw [hgo, hF, hfF]
    · rw [hgo, hC, hfR]
    · rw [hgo, hN, hfN]
    · rw [hgo, hO, hfO]
    · exact (hP2.cons u).trans hpermc.symm
    · refine List.Pairwise.cons ?_ ?_
      · intro b hb
        have hbs : b ∈ (s.sortStep).cands := (hP.mem_iff).mp hb
        rw [hcands2] at hbs
        exact hule b (List.mem_of_mem_filter hbs)
      · exact hPW.imp (fun hab => by rwa [hbv, hbv] at hab)
    · intro b1 b2 hb1 hb2 heq hpos
      by_cases hb2u : b2 = u
      · exfalso
        subst hb2u
        rw [hsplit] at hb1
        rcases List.mem_append.mp hb1 with hmem | hmem
        · have := hl1gt b1 hmem
          omega
        · rcases List.mem_cons.mp hmem with hbeq | hmem2
          · rw [hbeq] at hpos
            exact Nat.lt_irrefl _ hpos
          · have hpw := h5
            rw [hsplit] at hpw
            have hc2 := (List.pairwise_append.mp hpw).2.1
            have hc3 := (List.pairwise_cons.mp hc2).1 b1 hmem2
            omega
      · have hb2s : b2 ∈ (s.sortStep).cands := by
          rw [hcands2]
          exact List.mem_filter.mpr ⟨hb2, by simp [hb2u]⟩
        by_cases hb1u : b1 = u
        · subst hb1u
          exact ⟨[], new, rfl, (hP.mem_iff).mpr hb2s⟩
        · have hb1s : b1 ∈ (s.sortStep).cands := by
            rw [hcands2]
            exact List.mem_filter.mpr ⟨hb1, by simp [hb1u]⟩
          have heqs : (s.sortStep).bval b1 = (s.sortStep).bval b2 := by
            rw [hbv, hbv]; exact heq
          have hposs : scanPosN (s.sortStep).numOffs b1
              < scanPosN (s.sortStep).numOffs b2 := by
            rw [hfN]; exact hpos
          obtain ⟨l1n, l2n, hln, hbn⟩ := hS b1 b2 hb1s hb2s heqs hposs
          exact ⟨u :: l1n, l2n, by rw [hln, List.cons_append], hbn⟩

/-- The first component returned by `hitsByRank` is the bucket named by
the rank vectors. -/
theorem hitsByRank_fst (t : SeedResults) (r : Nat) :
    (t.hitsByRank r).1 = t.bucket (t.rankFws.getD r false) (t.rankOffs.getD r 0) := by
  unfold SeedResults.hitsByRank SeedResults.bucket
  by_cases h : t.rankFws.getD r false = true
  · rw [if_pos h, if_pos h]
  · rw [if_neg h, if_neg h]

/-- Reading a zip within bounds reads the two lists component-wise. -/
theorem zip_getD {α β : Type} :
    ∀ (l1 : List α) (l2 : List β) (r : Nat) (d1 : α) (d2 : β),
      r < (l1.zip l2).length →
      (l1.zip l2).getD r (d1, d2) = (l1.getD r d1, l2.getD r d2) := by
  intro l1
  induction l1 with
  | nil => intro l2 r d1 d2 h; simp at h
  | cons a t ih =>
    intro l2 r d1 d2 h
    cases l2 with
    | nil => simp at h
    | cons b t2 =>
      cases r with
      | zero => simp
      | succ r =>
        simp only [List.zip_cons_cons, List.getD_cons_succ]
        exact ih t2 r d1 d2 (by simpa using h)

/-- A pairwise relation holds between consecutive in-bounds reads. -/
theorem pairwise_getD {α : Type} (R : α → α → Prop) :
    ∀ (l : List α) (d : α), l.Pairwise R → ∀ r, r + 1 < l.length →
      R (l.getD r d) (l.getD (r + 1) d) := by
  intro l
  induction l with
  | nil => intro d hp r h; simp at h
  | cons a t ih =>
    intro d hp r h
    cases r with
    | zero =>
      cases t with
      | nil => simp at h
      | cons b t2 =>
        simp only [List.getD_cons_zero, List.getD_cons_succ]
        exact (List.pairwise_cons.mp hp).1 b (List.mem_cons_self b t2)
    | succ r =>
      simp only [List.getD_cons_succ]
      exact ih d (List.pairwise_cons.mp hp).2 r (by simpa using h)

/-- Correctness of `SeedResults::sort()` on a freshly reset-and-filled
state: the ranked sequence is a permutation of the non-empty buckets,
is non-decreasing in element count, ranks scan-earlier buckets first
among ties, and leaves the buckets themselves untouched. -/
theorem sortAll_setup (s : SeedResults)
    (hsf : s.sortedFw = List.replicate s.numOffs false)
    (hsr : s.sortedRc = List.replicate s.numOffs false)
    (hro : s.rankOffs = []) (hrf : s.rankFws = [])
    (hnz : s.nonzTot = s.nonEmptyBuckets.length)
    (hsent : ∀ b ∈ s.nonEmptyBuckets, s.bval b < 4294967295) :
    (s.sortAll).ranked.Perm s.nonEmptyBuckets ∧
    (s.sortAll).ranked.Pairwise (fun a b => s.bval a ≤ s.bval b) ∧
    (∀ b1 b2, b1 ∈ s.nonEmptyBuckets → b2 ∈ s.nonEmptyBuckets →
      s.bval b1 = s.bval b2 → scanPosN s.numOffs b1 < scanPosN s.numOffs b2 →
      memBefore b1 b2 (s.sortAll).ranked) ∧
    (s.sortAll).hitsFw = s.hitsFw ∧ (s.sortAll).hitsRc = s.hitsRc := by
  have hcand : s.cands = s.nonEmptyBuckets := by
    unfold SeedResults.cands SeedResults.nonEmptyBuckets
    apply List.filter_congr
    intro b hb
    unfold SeedResults.isCand SeedResults.sortedFlag
    rw [hsf, hsr]
    cases hbf : b.1 <;> simp [hbf, getD_replicate]
  have h1 : s.sortedFw.length = s.numOffs := by rw [hsf]; simp
  have h2 : s.sortedRc.length = s.numOffs := by rw [hsr]; simp
  have h3 : s.rankFws.length = s.rankOffs.length := by simp [hro, hrf]
  have h4 : s.cands.Nodup := (scanOrder_nodup _).filter _
  have h5 : s.cands.Pairwise (fun a b => scanPosN s.numOffs a < scanPosN s.numOffs b) :=
    List.Pairwise.sublist (List.filter_sublist _) (scanOrder_pairwise _)
  have h6 : ∀ b ∈ s.cands, s.bval b < 4294967295 := by rw [hcand]; exact hsent
  have hk : s.nonzTot - s.rankOffs.length = s.cands.length := by
    rw [hro, hcand]
    simpa using hnz
  obtain ⟨new, hR, hF, hC, hN, hO, hP, hPW, hS⟩ :=
    sortGo_spec (s.nonzTot - s.rankOffs.length) s h1 h2 h3 h4 h5 h6 hk
  have hrnil : s.ranked = [] := by
    unfold SeedResults.ranked
    rw [hrf, hro]
    rfl
  have hAll : (s.sortAll).ranked = new := by
    have hstep : (s.sortAll).ranked = (s.sortGo (s.nonzTot - s.rankOffs.length)).ranked := rfl
    rw [hstep, hR, hrnil, List.nil_append]
  refine ⟨?_, ?_, ?_, ?_, ?_⟩
  · rw [hAll, ← hcand]; exact hP
  · rw [hAll]; exact hPW
  · intro b1 b2 hb1 hb2 heq hpos
    rw [hAll]
    exact hS b1 b2 (by rw [hcand]; exact hb1) (by rw [hcand]; exact hb2) heq hpos
  · exact hF
  · exact hC

/-- Claim C3: after `sort()`, the ranked sequence covers ranks
`0 .. nonzTot - 1`, its element counts are non-decreasing between
consecutive ranks as read back through `hitsByRank`, and the ranked
(orientation, offset-index) pairs are exactly a permutation of the
buckets holding a valid QVal with at least one element.  The state is
assumed freshly reset and filled (flags clear, rank vectors empty,
`nonzTot_` counting the non-empty buckets) with bucket sizes below the
0xffffffff scan sentinel. -/
theorem sort_nondecreasing_perm (s : SeedResults)
    (hsf : s.sortedFw = List.replicate s.numOffs false)
    (hsr : s.sortedRc = List.replicate s.numOffs false)
    (hro : s.rankOffs = []) (hrf : s.rankFws = [])
    (hnz : s.nonzTot = s.nonEmptyBuckets.length)
    (hsent : ∀ b ∈ s.nonEmptyBuckets, s.bval b < 4294967295) :
    (s.sortAll).ranked.length = s.nonzTot ∧
    (∀ r, r + 1 < s.nonzTot →
      ((s.sortAll).hitsByRank r).1.numElts
        ≤ ((s.sortAll).hitsByRank (r + 1)).1.numElts) ∧
    (s.sortAll).ranked.Perm s.nonEmptyBuckets := by
  obtain ⟨hperm, hpw, hstab, hF, hC⟩ := sortAll_setup s hsf hsr hro hrf hnz hsent
  have hlen : (s.sortAll).ranked.length = s.nonzTot := by
    rw [hperm.length_eq, hnz]
  refine ⟨hlen, ?_, hperm⟩
  intro r hr
  have hbt : ∀ fw i, (s.sortAll).bucket fw i = s.bucket fw i := by
    intro fw i
    unfold SeedResults.bucket
    cases fw <;> simp [hF, hC]
  have hkey : ∀ rr, rr < (s.sortAll).ranked.length →
      ((s.sortAll).hitsByRank rr).1
        = s.bucket ((s.sortAll).ranked.getD rr (false, 0)).1
            ((s.sortAll).ranked.getD rr (false, 0)).2 := by
    intro rr hrr
    rw [hitsByRank_fst]
    have hzr : (s.sortAll).ranked.getD rr (false, 0)
        = ((s.sortAll).rankFws.getD rr false, (s.sortAll).rankOffs.getD rr 0) :=
      zip_getD (s.sortAll).rankFws (s.sortAll).rankOffs rr false 0 hrr
    rw [hzr, hbt]
  have hr1 : r < (s.sortAll).ranked.length := by omega
  have hr2 : r + 1 < (s.sortAll).ranked.length := by omega
  rw [hkey r hr1, hkey (r + 1) hr2]
  exact pairwise_getD _ _ (false, 0) hpw r (by omega)

/-- A reset-and-filled state with one forward and one
reverse-complement bucket, both valid with one range of three
elements: a tie in `numElts` between the two orientations. -/
def tieSR : SeedResults :=
  { hitsFw := [{ numElts := 3, numRanges := 1, vld := true, empt := false }],
    hitsRc := [{ numElts := 3, numRanges := 1, vld := true, empt := false }],
    sortedFw := [false], sortedRc := [false],
    nonzTot := 2, nonzFw := 1, nonzRc := 1,
    numRanges := 2, numElts := 6, numRangesFw := 1, numEltsFw := 3,
    numRangesRc := 1, numEltsRc := 3,
    offIdx2off := [0], rankOffs := [], rankFws := [], sorted := false,
    numOffs := 1 }

/-- Claim C2 counterexample: on `tieSR` the forward and
reverse-complement buckets at offset index 0 hold equal element
counts, yet `sort()` ranks the reverse-complement bucket first (rank 0
has orientation false and rank 1 has orientation true, as `hitsByRank`
also reports), because the scan loop iterates `fw = 0`, which reads
`hitsRc_`, before `fw = 1`, and a tie never displaces the current
minimum under the strict comparison.  The claim says the forward
bucket is ranked before the reverse-complement one; here it is ranked
after it. -/
theorem sort_tie_fw_first_cex :
    (tieSR.hitsFw.getD 0 QVal.resetQ).numElts
      = (tieSR.hitsRc.getD 0 QVal.resetQ).numElts ∧
    (tieSR.hitsFw.getD 0 QVal.resetQ).vld = true ∧
    (tieSR.hitsRc.getD 0 QVal.resetQ).vld = true ∧
    (tieSR.sortAll).rankFws = [false, true] ∧
    (tieSR.sortAll).rankOffs = [0, 0] ∧
    ((tieSR.sortAll).hitsByRank 0).2.2.2 = false ∧
    ((tieSR.sortAll).hitsByRank 1).2.2.2 = true := by
  decide

/-- Claim C2 (amended): `sort()` is stable with respect to the order
of the selection scan: whenever two non-empty buckets have equal
`numElts`, the bucket from the reverse-complement orientation is
ranked before the forward one, and among ties of the same orientation
the lower offset index is ranked first. -/
theorem sort_tie_order (s : SeedResults)
    (hsf : s.sortedFw = List.replicate s.numOffs false)
    (hsr : s.sortedRc = List.replicate s.numOffs false)
    (hro : s.rankOffs = []) (hrf : s.rankFws = [])
    (hnz : s.nonzTot = s.nonEmptyBuckets.length)
    (hsent : ∀ b ∈ s.nonEmptyBuckets, s.bval b < 4294967295)
    (b1 b2 : Bool × Nat)
    (hb1 : b1 ∈ s.nonEmptyBuckets) (hb2 : b2 ∈ s.nonEmptyBuckets)
    (heq : s.bval b1 = s.bval b2) :
    (b1.1 = false → b2.1 = true → memBefore b1 b2 (s.sortAll).ranked) ∧
    (b1.1 = b2.1 → b1.2 < b2.2 → memBefore b1 b2 (s.sortAll).ranked) := by
  obtain ⟨hperm, hpw, hstab, hF, hC⟩ := sortAll_setup s hsf hsr hro hrf hnz hsent
  have hb1n : b1.2 < s.numOffs := by
    have hmf : b1 ∈ (scanOrder s.numOffs).filter
        (fun b => (s.bucket b.1 b.2).vld && decide (0 < s.bval b)) := hb1
    exact (mem_scanOrder _ _).mp (List.mem_of_mem_filter hmf)
  constructor
  · intro hf1 hf2
    apply hstab b1 b2 hb1 hb2 heq
    have e1 : scanPosN s.numOffs b1 = b1.2 := by unfold scanPosN; rw [hf1]; simp
    have e2 : scanPosN s.numOffs b2 = s.numOffs + b2.2 := by
      unfold scanPosN; rw [hf2]; simp
    rw [e1, e2]
    omega
  · intro hsame hlt
    apply hstab b1 b2 hb1 hb2 heq
    cases hbf : b2.1 with
    | false =>
      have e1 : scanPosN s.numOffs b1 = b1.2 := by
        unfold scanPosN; rw [hsame, hbf]; simp
      have e2 : scanPosN s.numOffs b2 = b2.2 := by
        unfold scanPosN; rw [hbf]; simp
      rw [e1, e2]
      exact hlt
    | true =>
      have e1 : scanPosN s.numOffs b1 = s.numOffs + b1.2 := by
        unfold scanPosN; rw [hsame, hbf]; simp
      have e2 : scanPosN s.numOffs b2 = s.numOffs + b2.2 := by
        unfold scanPosN; rw [hbf]; simp
      rw [e1, e2]
      omega

/-- Witness for the amended C2 on `tieSR`: the tied
reverse-complement bucket is ranked before the forward one. -/
theorem sort_tie_order_w :
    memBefore ((false : Bool), (0 : Nat)) ((true : Bool), (0 : Nat))
      (tieSR.sortAll).ranked :=
  (sort_tie_order tieSR (by decide) (by decide) rfl rfl (by decide) (by decide)
    (false, 0) (true, 0) (by decide) (by decide) (by decide)).1 rfl rfl

/-- Witness for C3 on `tieSR`: the ranked pairs are a permutation of
the non-empty buckets. -/
theorem sort_nondecreasing_perm_w :
    (tieSR.sortAll).ranked.Perm tieSR.nonEmptyBuckets ∧
    ((tieSR.sortAll).hitsByRank 0).1.numElts
      ≤ ((tieSR.sortAll).hitsByRank 1).1.numElts :=
  ⟨(sort_nondecreasing_perm tieSR (by decide) (by decide) rfl rfl
      (by decide) (by decide)).2.2,
   (sort_nondecreasing_perm tieSR (by decide) (by decide) rfl rfl
      (by decide) (by decide)).2.1 0 (by decide)⟩

/-- Changing the predicate value at one list position from false: the
filter grows by one exactly when the new value there is true. -/
theorem filter_length_flip {α : Type} [DecidableEq α] :
    ∀ (l : List α) (p q : α → Bool) (b0 : α), l.Nodup → b0 ∈ l →
      (∀ b ∈ l, b ≠ b0 → q b = p b) → p b0 = false →
      (l.filter q).length = (l.filter p).length + (if q b0 then 1 else 0) := by
  intro l
  induction l with
  | nil => intro p q b0 _ hmem _ _; cases hmem
  | cons a t ih =>
    intro p q b0 hnd hmem hqp hp0
    have hat : a ∉ t := (List.nodup_cons.mp hnd).1
    have hndt : t.Nodup := (List.nodup_cons.mp hnd).2
    rcases List.mem_cons.mp hmem with hb0a | hb0t
    · subst hb0a
      have hteq : t.filter q = t.filter p := by
        apply List.filter_congr
        intro b hb
        exact hqp b (List.mem_cons_of_mem _ hb) (fun he => hat (he ▸ hb))
      rw [List.filter_cons, List.filter_cons, hp0, hteq]
      cases hq : q b0 <;> simp [hq]
    · have hqa : q a = p a := hqp a (List.mem_cons_self a t) (fun he => hat (he ▸ hb0t))
      have hrec := ih p q b0 hndt hb0t
        (fun b hb hne => hqp b (List.mem_cons_of_mem _ hb) hne) hp0
      rw [List.filter_cons, List.filter_cons, hqa]
      cases hp : p a <;> simp [hp, hrec] <;> omega

/-- After a non-empty `add`, the addressed bucket holds the new QVal
and every other bucket is unchanged. -/
theorem add_bucket (s : SeedResults) (qv : QVal) (seedIdx : Nat) (fw : Bool)
    (hne : qv.empt = false)
    (hlf : s.hitsFw.length = s.numOffs) (hlr : s.hitsRc.length = s.numOffs)
    (hidx : seedIdx < s.numOffs) :
    ∀ (fw2 : Bool) (i : Nat), (s.add qv seedIdx fw).bucket fw2 i
      = if fw2 = fw ∧ i = seedIdx then qv else s.bucket fw2 i := by
  intro fw2 i
  cases fw with
  | true =>
    have hrec : (s.add qv seedIdx true).hitsFw = s.hitsFw.set seedIdx qv ∧
        (s.add qv seedIdx true).hitsRc = s.hitsRc := by
      constructor <;> simp [SeedResults.add, hne]
    cases fw2 with
    | true =>
      have hl : (s.add qv seedIdx true).bucket true i
          = ((s.add qv seedIdx true).hitsFw).getD i QVal.resetQ := rfl
      have hr2 : s.bucket true i = s.hitsFw.getD i QVal.resetQ := rfl
      rw [hl, hrec.1, getD_set_of_lt _ _ _ _ _ (by rw [hlf]; exact hidx), hr2]
      by_cases hi : i = seedIdx <;> simp [hi]
    | false =>
      have hl : (s.add qv seedIdx true).bucket false i
          = ((s.add qv seedIdx true).hitsRc).getD i QVal.resetQ := rfl
      have hr2 : s.bucket false i = s.hitsRc.getD i QVal.resetQ := rfl
      rw [hl, hrec.2, if_neg (by simp), hr2]
  | false =>
    have hrec : (s.add qv seedIdx false).hitsRc = s.hitsRc.set seedIdx qv ∧
        (s.add qv seedIdx false).hitsFw = s.hitsFw := by
      constructor <;> simp [SeedResults.add, hne]
    cases fw2 with
    | false =>
      have hl : (s.add qv seedIdx false).bucket false i
          = ((s.add qv seedIdx false).hitsRc).getD i QVal.resetQ := rfl
      have hr2 : s.bucket false i = s.hitsRc.getD i QVal.resetQ := rfl
      rw [hl, hrec.1, getD_set_of_lt _ _ _ _ _ (by rw [hlr]; exact hidx), hr2]
      by_cases hi : i = seedIdx <;> simp [hi]
    | true =>
      have hl : (s.add qv seedIdx false).bucket true i
          = ((s.add qv seedIdx false).hitsFw).getD i QVal.resetQ := rfl
      have hr2 : s.bucket true i = s.hitsFw.getD i QVal.resetQ := rfl
      rw [hl, hrec.2, if_neg (by simp), hr2]

/-- `reset` establishes the aggregate-counter invariant: every bucket
becomes an invalid reset QVal and every counter becomes zero. -/
theorem reset_inv (s : SeedResults) (offs : List Nat) (n : Nat) :
    (s.reset offs n).Inv := by
  have hb : ∀ (fw : Bool) (i : Nat), (s.reset offs n).bucket fw i = QVal.resetQ := by
    intro fw i
    unfold SeedResults.bucket SeedResults.reset SeedResults.clear
    cases fw <;> simp [getD_replicate]
  have hcount : (s.reset offs n).countNonz = 0 := by
    unfold SeedResults.countNonz
    have hfalse : ∀ b ∈ scanOrder (s.reset offs n).numOffs,
        (((s.reset offs n).bucket b.1 b.2).vld &&
          decide (0 < ((s.reset offs n).bucket b.1 b.2).numRanges))
        = (fun (_ : Bool × Nat) => false) b := by
      intro b _
      rw [hb]
      rfl
    rw [List.filter_congr hfalse]
    simp
  refine ⟨?_, ?_, ?_, ?_, ?_, ?_, ?_⟩ <;>
    first
      | (rw [hcount]; simp [SeedResults.reset, SeedResults.clear])
      | simp [SeedResults.reset, SeedResults.clear]

/-- A precondition-respecting `add` preserves the aggregate-counter
invariant. -/
theorem add_inv (s : SeedResults) (qv : QVal) (seedIdx : Nat) (fw : Bool)
    (hInv : s.Inv)
    (hok : (SROp.add qv seedIdx fw).ok s = true) :
    (s.add qv seedIdx fw).Inv := by
  obtain ⟨i1, i2, i3, i4, i5, i6, i7⟩ := hInv
  by_cases hemp : qv.empt = true
  · have hid : s.add qv seedIdx fw = s := by simp [SeedResults.add, hemp]
    rw [hid]
    exact ⟨i1, i2, i3, i4, i5, i6, i7⟩
  · have hne : qv.empt = false := by
      cases h : qv.empt
      · rfl
      · exact absurd h hemp
    simp [SROp.ok, hne] at hok
    obtain ⟨hidx, ⟨hv, hbv⟩, hrle⟩ := hok
    have hbk := add_bucket s qv seedIdx fw hne i1 i2 hidx
    have hmem : ((fw, seedIdx) : Bool × Nat) ∈ scanOrder s.numOffs :=
      (mem_scanOrder _ _).mpr hidx
    have hnum : (s.add qv seedIdx fw).numOffs = s.numOffs := by
      cases fw <;> simp [SeedResults.add, hne]
    have hcnt : (s.add qv seedIdx fw).countNonz
        = s.countNonz + (if 0 < qv.numRanges then 1 else 0) := by
      unfold SeedResults.countNonz
      rw [hnum]
      have hflip := filter_length_flip (scanOrder s.numOffs)
        (fun b => (s.bucket b.1 b.2).vld && decide (0 < (s.bucket b.1 b.2).numRanges))
        (fun b => ((s.add qv seedIdx fw).bucket b.1 b.2).vld &&
          decide (0 < ((s.add qv seedIdx fw).bucket b.1 b.2).numRanges))
        ((fw, seedIdx) : Bool × Nat) (scanOrder_nodup _) hmem ?_ ?_
      · rw [hflip]
        have hcond : ((fun b => ((s.add qv seedIdx fw).bucket b.1 b.2).vld &&
            decide (0 < ((s.add qv seedIdx fw).bucket b.1 b.2).numRanges))
            ((fw, seedIdx) : Bool × Nat)) = (qv.vld && decide (0 < qv.numRanges)) := by
          simp [hbk]
        rw [hcond, hv]
        by_cases hr : 0 < qv.numRanges <;> simp [hr]
      · intro b hbmem hbne
        have hbb : (s.add qv seedIdx fw).bucket b.1 b.2 = s.bucket b.1 b.2 := by
          rw [hbk]
          rw [if_neg ?hc]
          case hc =>
            intro hc
            apply hbne
            obtain ⟨bf, bi⟩ := b
            simp only at hc
            rw [hc.1, hc.2]
        simp only [hbb]
      · have hp0 : (s.bucket ((fw, seedIdx) : Bool × Nat).1
            ((fw, seedIdx) : Bool × Nat).2).vld = false := by simpa using hbv
        simp [hp0]
    cases fw with
    | true =>
      have hrec : (s.add qv seedIdx true).numElts = s.numElts + qv.numElts ∧
          (s.add qv seedIdx true).numRanges = s.numRanges + qv.numRanges ∧
          (s.add qv seedIdx true).nonzTot
            = (if 0 < qv.numRanges then s.nonzTot + 1 else s.nonzTot) ∧
          (s.add qv seedIdx true).numEltsFw = s.numEltsFw + qv.numElts ∧
          (s.add qv seedIdx true).numEltsRc = s.numEltsRc ∧
          (s.add qv seedIdx true).numRangesFw = s.numRangesFw + qv.numRanges ∧
          (s.add qv seedIdx true).numRangesRc = s.numRangesRc ∧
          (s.add qv seedIdx true).hitsFw.length = s.hitsFw.length ∧
          (s.add qv seedIdx true).hitsRc.length = s.hitsRc.length := by
        refine ⟨?_, ?_, ?_, ?_, ?_, ?_, ?_, ?_, ?_⟩ <;> simp [SeedResults.add, hne]
      obtain ⟨e1, e2, e3, e4, e5, e6, e7, e8, e9⟩ := hrec
      refine ⟨?_, ?_, ?_, ?_, ?_, ?_, ?_⟩
      · rw [e8, hnum]; exact i1
      · rw [e9, hnum]; exact i2
      · rw [e3, hcnt, i3]
        by_cases hr : 0 < qv.numRanges <;> simp [hr]
      · rw [e3, e2]
        by_cases hr : 0 < qv.numRanges <;> simp [hr] <;> omega
      · rw [e2, e1]; omega
      · rw [e4, e5, e1]; omega
      · rw [e6, e7, e2]; omega
    | false =>
      have hrec : (s.add qv seedIdx false).numElts = s.numElts + qv.numElts ∧
          (s.add qv seedIdx false).numRanges = s.numRanges + qv.numRanges ∧
          (s.add qv seedIdx false).nonzTot
            = (if 0 < qv.numRanges then s.nonzTot + 1 else s.nonzTot) ∧
          (s.add qv seedIdx false).numEltsRc = s.numEltsRc + qv.numElts ∧
          (s.add qv seedIdx false).numEltsFw = s.numEltsFw ∧
          (s.add qv seedIdx false).numRangesRc = s.numRangesRc + qv.numRanges ∧
          (s.add qv seedIdx false).numRangesFw = s.numRangesFw ∧
          (s.add qv seedIdx false).hitsFw.length = s.hitsFw.length ∧
          (s.add qv seedIdx false).hitsRc.length = s.hitsRc.length := by
        refine ⟨?_, ?_, ?_, ?_, ?_, ?_, ?_, ?_, ?_⟩ <;> simp [SeedResults.add, hne]
      obtain ⟨e1, e2, e3, e4, e5, e6, e7, e8, e9⟩ := hrec
      refine ⟨?_, ?_, ?_, ?_, ?_, ?_, ?_⟩
      · rw [e8, hnum]; exact i1
      · rw [e9, hnum]; exact i2
      · rw [e3, hcnt, i3]
        by_cases hr : 0 < qv.numRanges <;> simp [hr]
      · rw [e3, e2]
        by_cases hr : 0 < qv.numRanges <;> simp [hr] <;> omega
      · rw [e2, e1]; omega
      · rw [e5, e4, e1]; omega
      · rw [e7, e6, e2]; omega

/-- Claim C10: every sequence of precondition-respecting `reset` and
`add` operations preserves the `repOk` aggregate invariant: `nonzTot_`
counts the buckets holding a valid QVal with at least one range,
`nonzTot_ <= numRanges_ <= numElts_`, and the per-orientation element
and range counters sum to the totals. -/
theorem reset_add_inv (s : SeedResults) (ops : List SROp)
    (hInv : s.Inv) (hrun : validRun s ops = true) :
    (runOps s ops).Inv := by
  induction ops generalizing s with
  | nil => exact hInv
  | cons op rest ih =>
    simp only [validRun, Bool.and_eq_true] at hrun
    obtain ⟨hok, hrest⟩ := hrun
    have hstep : (op.apply s).Inv := by
      cases op with
      | rst offs n => exact reset_inv s offs n
      | add qv i fw => exact add_inv s qv i fw hInv hok
    exact ih (op.apply s) hstep hrest

/-- Witness for C10: a reset for two offsets followed by a non-empty
forward add and an empty add keeps the invariant. -/
theorem reset_add_inv_w :
    (runOps emptySR
      [SROp.rst [0, 5] 2, SROp.add sampQ 0 true,
       SROp.add QVal.resetQ 1 false]).Inv :=
  reset_add_inv emptySR
    [SROp.rst [0, 5] 2, SROp.add sampQ 0 true, SROp.add QVal.resetQ 1 false]
    (by decide) (by decide)
